import Mathlib

/-!
# Verification of the positioning-system estimation kernel

Shallow embedding of the numeric core of the repository
(`kbest.py`: fingerprint matching, `nlateration.py`: range-based
multilateration), with proofs of the specified properties.

Modelling conventions:
* numpy float arrays are modelled as lists of exact numbers; the
  algorithmic/combinatorial core (squared distances, index sorting,
  selection) is kept over `ℚ` so it is executable, and the final
  `np.sqrt` is applied as `Real.sqrt` on top (square root is strictly
  monotone on nonnegative numbers, so sorting by the squared metric is
  sorting by the metric);
* `np.argsort` (default `kind='quicksort'`, which numpy does not
  guarantee to be stable) is modelled by fixing one admissible tie
  resolution: indices ordered lexicographically by (metric value,
  original index).  The theorems proved below about the selection
  depend only on tie-order-insensitive consequences (a permutation
  sorted by key; at the concrete module data all keys are distinct,
  so the sorted order is unique);
* a Python `try/except` handler that prints and returns an
  empty/default value is modelled by returning that value
  (`[]`, `none`, or the default position) on the corresponding
  condition;
* `scipy.optimize.minimize` is external to the repository; in
  `trilaterate` it is abstracted as a function parameter that returns
  `some` position when the call returns normally (whether or not the
  run converged — the source discards `result.success`) and `none`
  when it raises, which sends the source into its generic exception
  handler.
-/

namespace Kbest

/-- Squared Euclidean distance between two equal-length vectors:
the row-wise `differences ** 2` summed along `axis=1` in
`compute_similarity` (`kbest.py` lines 32-34), before the final
`np.sqrt`. -/
def sq_dist (r mp : List ℚ) : ℚ :=
  ((r.zip mp).map fun x => (x.1 - x.2) ^ 2).sum

/-- `compute_similarity` (`kbest.py` lines 22-38), squared-metric core.
The `assert reference_vectors.shape[1] == mp_vector.shape[0]` dimension
check failing raises, and the handler prints and returns `np.array([])`:
modelled by returning `[]`.  On success the result is the per-row sum of
squared differences (the metric is the square root of each entry). -/
def compute_similarity_sq (reference_vectors : List (List ℚ)) (mp_vector : List ℚ) :
    List ℚ :=
  if ∀ r ∈ reference_vectors, r.length = mp_vector.length then
    reference_vectors.map fun r => sq_dist r mp_vector
  else
    []

/-- `compute_similarity` (`kbest.py` lines 22-38): the Euclidean norms
themselves, i.e. `np.sqrt` of the squared sums. -/
noncomputable def compute_similarity (reference_vectors : List (List ℚ))
    (mp_vector : List ℚ) : List ℝ :=
  (compute_similarity_sq reference_vectors mp_vector).map fun q : ℚ => Real.sqrt (q : ℝ)

/-- The index order used by the `argsort` model below: strictly
smaller metric first, ties resolved by original index (one admissible
resolution — numpy's default sort fixes none). -/
def argsortLe (m : List ℚ) (i j : ℕ) : Prop :=
  m.getD i 0 < m.getD j 0 ∨ (m.getD i 0 = m.getD j 0 ∧ i ≤ j)

instance (m : List ℚ) : DecidableRel (argsortLe m) := fun i j => by
  unfold argsortLe
  infer_instance

/-- `np.argsort(metrics)` (`kbest.py` line 53): the indices
`0 .. metrics.length - 1` sorted by metric value.  numpy's default
`kind='quicksort'` does not guarantee any particular order among equal
metrics, so this model fixes one admissible tie resolution — original
index order, i.e. (metric, index)-lexicographic.  Results proved from
this definition are only faithful to the program insofar as they are
insensitive to the tie order (they concern a key-sorted permutation of
the index range, or inputs whose metrics are pairwise distinct, where
the key-sorted order is unique). -/
def argsort (m : List ℚ) : List ℕ :=
  (List.range m.length).insertionSort (argsortLe m)

/-- `find_best_cells` (`kbest.py` lines 40-57), squared-metric core.
`assert k > 0` failing, or `compute_similarity` having returned an empty
array (`assert metrics.size > 0`), sends the source into its handler,
which prints and returns `(np.array([]), np.array([]))`: modelled by
`([], [])`.  Otherwise the first `k` entries of the argsort are returned
together with `metrics[best_indices]`. -/
def find_best_cells (reference_vectors : List (List ℚ)) (mp_vector : List ℚ)
    (k : ℕ) : List ℕ × List ℚ :=
  if k = 0 then ([], [])
  else
    let metrics := compute_similarity_sq reference_vectors mp_vector
    if metrics.length = 0 then ([], [])
    else
      let best_indices := (argsort metrics).take k
      (best_indices, best_indices.map fun i => metrics.getD i 0)

/-- `find_best_cells` with the distances reported as the actual
Euclidean norms (`np.sqrt` applied), as the source returns them. -/
noncomputable def find_best_cells_real (reference_vectors : List (List ℚ))
    (mp_vector : List ℚ) (k : ℕ) : List ℕ × List ℝ :=
  ((find_best_cells reference_vectors mp_vector k).1,
    ((find_best_cells reference_vectors mp_vector k).2).map fun q : ℚ => Real.sqrt (q : ℝ))

/-- `weights = 1 / metrics` (`kbest.py` line 70): the raw
inverse-distance weights. -/
noncomputable def inv_weights (metrics : List ℝ) : List ℝ :=
  metrics.map fun m => 1 / m

/-- `weights /= np.sum(weights)` (`kbest.py` line 71): the normalized
weights. -/
noncomputable def normalized_weights (metrics : List ℝ) : List ℝ :=
  (inv_weights metrics).map fun w => w / (inv_weights metrics).sum

/-- `compute_barycentric_position` (`kbest.py` lines 59-76).
The `assert len(best_indices) == len(metrics)` failing, or numpy fancy
indexing `cell_positions[best_indices]` raising on an out-of-range
index, sends the source into its handler, which prints and returns
`np.array([None, None])`: modelled by `none`.  Otherwise the estimate is
`np.sum(cell_positions[best_indices] * weights[:, np.newaxis], axis=0)`,
the weight-sum of the selected cell positions. -/
noncomputable def compute_barycentric_position (cell_positions : List (ℝ × ℝ))
    (best_indices : List ℕ) (metrics : List ℝ) : Option (ℝ × ℝ) :=
  if best_indices.length = metrics.length ∧
      ∀ i ∈ best_indices, i < cell_positions.length then
    some ((((normalized_weights metrics).zip
      (best_indices.map fun i => cell_positions.getD i (0, 0))).map
        fun x => x.1 • x.2).sum)
  else
    none

/-- The module-level catalogue of RSS reference vectors
(`kbest.py` lines 112-118). -/
def reference_vectors : List (List ℚ) :=
  [[50, 60, 70], [55, 65, 75], [40, 50, 60], [45, 55, 65], [30, 40, 50]]

/-- The module-level measured RSS vector (`kbest.py` line 120). -/
def mp_vector : List ℚ := [48, 58, 68]

/-- The module-level cell positions (`kbest.py` lines 122-128). -/
def cell_positions : List (ℝ × ℝ) :=
  [(0, 0), (1, 0), (0, 1), (1, 1), (2, 2)]

end Kbest

namespace NpFloat

/-- The slice of IEEE-754 double behaviour that
`compute_barycentric_position` exercises when a distance is exactly
zero: nonnegative finite values (kept exact as `ℚ`), positive infinity
(numpy evaluates `1.0 / 0.0` to `inf` with a `RuntimeWarning`, not an
exception) and NaN.  Signs are irrelevant here because all metrics and
all coordinates involved are nonnegative. -/
inductive F where
  | nan : F
  | inf : F
  | fin : ℚ → F
deriving DecidableEq

/-- IEEE addition on the nonnegative range: NaN absorbs, `inf + x = inf`. -/
def add : F → F → F
  | .nan, _ => .nan
  | _, .nan => .nan
  | .inf, _ => .inf
  | _, .inf => .inf
  | .fin a, .fin b => .fin (a + b)

/-- IEEE multiplication on the nonnegative range: NaN absorbs,
`inf * 0 = nan`, `inf * x = inf` for `x > 0`. -/
def mul : F → F → F
  | .nan, _ => .nan
  | _, .nan => .nan
  | .inf, .fin b => if b = 0 then .nan else .inf
  | .fin a, .inf => if a = 0 then .nan else .inf
  | .inf, .inf => .inf
  | .fin a, .fin b => .fin (a * b)

/-- IEEE division on the nonnegative range: NaN absorbs,
`inf / inf = nan`, `x / inf = 0`, `x / 0 = inf` for `x > 0`,
`0 / 0 = nan`. -/
def div : F → F → F
  | .nan, _ => .nan
  | _, .nan => .nan
  | .inf, .inf => .nan
  | .inf, .fin _ => .inf
  | .fin _, .inf => .fin 0
  | .fin a, .fin b => if b = 0 then (if a = 0 then .nan else .inf) else .fin (a / b)

/-- `compute_barycentric_position` (`kbest.py` lines 68-73) replayed
under numpy float semantics: `weights = 1 / metrics`,
`weights /= np.sum(weights)`, then the coordinatewise weighted sum of
the selected cell positions.  No branch of the source clamps a zero
distance or short-circuits on it. -/
def np_barycentric (cell_positions : List (ℚ × ℚ)) (best_indices : List ℕ)
    (metrics : List ℚ) : F × F :=
  let weights := metrics.map fun m => div (.fin 1) (.fin m)
  let wsum := weights.foldl add (.fin 0)
  let nweights := weights.map fun w => div w wsum
  let selected := best_indices.map fun i => cell_positions.getD i (0, 0)
  ((nweights.zip selected).foldl (fun acc x => add acc (mul x.1 (.fin x.2.1))) (.fin 0),
    (nweights.zip selected).foldl (fun acc x => add acc (mul x.1 (.fin x.2.2))) (.fin 0))

end NpFloat

namespace Nlateration

/-- `AccessPoint` (`nlateration.py` lines 28-52): identifier, 3D
coordinate, measured range (`radius`, asserted positive by the
constructor) and a display colour. -/
structure AccessPoint where
  id : ℤ
  x : ℝ
  y : ℝ
  z : ℝ
  radius : ℝ
  color : String

/-- The per-anchor Euclidean distance
`np.sqrt((x - ap.x)**2 + (y - ap.y)**2 + (z - ap.z)**2)`
(`nlateration.py` line 147). -/
noncomputable def ap_distance (px py pz : ℝ) (ap : AccessPoint) : ℝ :=
  Real.sqrt ((px - ap.x) ^ 2 + (py - ap.y) ^ 2 + (pz - ap.z) ^ 2)

/-- `calculate_error` (`nlateration.py` lines 132-152): the loop
`error += (distance - ap.radius)**2` summed over the access points. -/
noncomputable def calculate_error (position : ℝ × ℝ × ℝ)
    (access_points : List AccessPoint) : ℝ :=
  (access_points.map fun ap =>
    (ap_distance position.1 position.2.1 position.2.2 ap - ap.radius) ^ 2).sum

/-- `trilaterate` (`nlateration.py` lines 154-177).
`scipy.optimize.minimize` is external, so it is abstracted as the
parameter `minimize`: it yields `some result.x` whenever the call
returns (the source then returns `result.x` unconditionally — it never
inspects `result.success`, so no convergence status reaches the
caller), and `none` when it raises.  The `assert len(access_points) >= 3`
failing is caught by the `AssertionError` handler, which prints and
falls off the end of the function, returning Python `None`: modelled by
`none`.  A raising `minimize` lands in the generic handler, which
prints and returns the default position `[0, 0, 0]`. -/
def trilaterate (minimize : List AccessPoint → Option (ℝ × ℝ × ℝ))
    (access_points : List AccessPoint) : Option (ℝ × ℝ × ℝ) :=
  if 3 ≤ access_points.length then
    match minimize access_points with
    | some p => some p
    | none => some (0, 0, 0)
  else
    none

end Nlateration

/-! ### Helper lemmas: similarity metrics and the stable argsort -/

namespace Kbest

theorem sq_dist_nonneg (r mp : List ℚ) : 0 ≤ sq_dist r mp := by
  apply List.sum_nonneg
  intro x hx
  simp only [List.mem_map] at hx
  obtain ⟨p, _, rfl⟩ := hx
  positivity

theorem compute_similarity_sq_nonneg (rv : List (List ℚ)) (mp : List ℚ) :
    ∀ q ∈ compute_similarity_sq rv mp, 0 ≤ q := by
  intro q hq
  unfold compute_similarity_sq at hq
  split at hq
  · simp only [List.mem_map] at hq
    obtain ⟨r, _, rfl⟩ := hq
    exact sq_dist_nonneg r mp
  · simp at hq

theorem compute_similarity_sq_getD_nonneg (rv : List (List ℚ)) (mp : List ℚ)
    (i : ℕ) : 0 ≤ (compute_similarity_sq rv mp).getD i 0 := by
  by_cases h : i < (compute_similarity_sq rv mp).length
  · rw [List.getD_eq_getElem _ _ h]
    exact compute_similarity_sq_nonneg rv mp _ (List.getElem_mem h)
  · rw [List.getD_eq_default _ _ (Nat.le_of_not_lt h)]

theorem compute_similarity_sq_length (rv : List (List ℚ)) (mp : List ℚ)
    (hdim : ∀ r ∈ rv, r.length = mp.length) :
    (compute_similarity_sq rv mp).length = rv.length := by
  unfold compute_similarity_sq
  rw [if_pos hdim, List.length_map]

theorem compute_similarity_getD (rv : List (List ℚ)) (mp : List ℚ) (i : ℕ) :
    (compute_similarity rv mp).getD i 0 =
      Real.sqrt (((compute_similarity_sq rv mp).getD i 0 : ℚ) : ℝ) := by
  unfold compute_similarity
  by_cases h : i < (compute_similarity_sq rv mp).length
  · rw [List.getD_eq_getElem _ _ (by simpa using h), List.getD_eq_getElem _ _ h,
      List.getElem_map]
  · rw [List.getD_eq_default _ _ (by simpa using Nat.le_of_not_lt h),
      List.getD_eq_default _ _ (Nat.le_of_not_lt h)]
    simp

theorem argsortLe_total (m : List ℚ) : ∀ i j, argsortLe m i j ∨ argsortLe m j i := by
  intro i j
  unfold argsortLe
  rcases lt_trichotomy (m.getD i 0) (m.getD j 0) with h | h | h
  · exact Or.inl (Or.inl h)
  · rcases Nat.le_total i j with hij | hij
    · exact Or.inl (Or.inr ⟨h, hij⟩)
    · exact Or.inr (Or.inr ⟨h.symm, hij⟩)
  · exact Or.inr (Or.inl h)

theorem argsortLe_trans (m : List ℚ) {i j l : ℕ} (h1 : argsortLe m i j)
    (h2 : argsortLe m j l) : argsortLe m i l := by
  unfold argsortLe at h1 h2 ⊢
  rcases h1 with h1 | ⟨e1, le1⟩
  · rcases h2 with h2 | ⟨e2, _⟩
    · exact Or.inl (h1.trans h2)
    · exact Or.inl (e2 ▸ h1)
  · rcases h2 with h2 | ⟨e2, le2⟩
    · exact Or.inl (e1 ▸ h2)
    · exact Or.inr ⟨e1.trans e2, le1.trans le2⟩

theorem argsort_perm (m : List ℚ) : List.Perm (argsort m) (List.range m.length) :=
  List.perm_insertionSort _ _

theorem argsort_length (m : List ℚ) : (argsort m).length = m.length :=
  (argsort_perm m).length_eq.trans (List.length_range _)

theorem argsort_nodup (m : List ℚ) : (argsort m).Nodup :=
  (argsort_perm m).nodup_iff.mpr (List.nodup_range _)

theorem argsort_mem (m : List ℚ) {i : ℕ} (h : i ∈ argsort m) : i < m.length :=
  List.mem_range.mp ((argsort_perm m).mem_iff.mp h)

theorem argsort_sorted (m : List ℚ) : (argsort m).Pairwise (argsortLe m) := by
  haveI : IsTotal ℕ (argsortLe m) := ⟨argsortLe_total m⟩
  haveI : IsTrans ℕ (argsortLe m) := ⟨fun _ _ _ => argsortLe_trans m⟩
  exact List.sorted_insertionSort (argsortLe m) (List.range m.length)

theorem argsort_pairwise_strict (m : List ℚ) :
    (argsort m).Pairwise fun i j =>
      m.getD i 0 < m.getD j 0 ∨ (m.getD i 0 = m.getD j 0 ∧ i < j) := by
  have h := (argsort_sorted m).and (argsort_nodup m)
  refine h.imp ?_
  rintro i j ⟨hle, hne⟩
  rcases hle with h | ⟨he, hij⟩
  · exact Or.inl h
  · exact Or.inr ⟨he, lt_of_le_of_ne hij hne⟩

theorem list_sum_nonneg_eq_zero_iff (l : List ℝ) (h : ∀ x ∈ l, 0 ≤ x) :
    l.sum = 0 ↔ ∀ x ∈ l, x = 0 := by
  induction l with
  | nil => simp
  | cons a t ih =>
    have ha : 0 ≤ a := h a (List.mem_cons_self a t)
    have ht : ∀ x ∈ t, 0 ≤ x := fun x hx => h x (List.mem_cons_of_mem a hx)
    have hts : 0 ≤ t.sum := List.sum_nonneg ht
    rw [List.sum_cons]
    constructor
    · intro he
      have hz := (add_eq_zero_iff_of_nonneg ha hts).mp he
      intro x hx
      rcases List.mem_cons.mp hx with rfl | hx
      · exact hz.1
      · exact ((ih ht).mp hz.2) x hx
    · intro hz
      rw [hz a (List.mem_cons_self a t), (ih ht).mpr fun x hx => hz x (List.mem_cons_of_mem a hx),
        add_zero]

theorem list_sum_map_div (l : List ℝ) (c : ℝ) :
    (l.map fun x => x / c).sum = l.sum / c := by
  induction l with
  | nil => simp
  | cons a t ih => simp [ih, add_div]

theorem sorted_sqrt_of_pairwise_strict (m : List ℚ) (l : List ℕ)
    (h : l.Pairwise fun i j =>
      m.getD i 0 < m.getD j 0 ∨ (m.getD i 0 = m.getD j 0 ∧ i < j)) :
    (l.map fun i => Real.sqrt ((m.getD i 0 : ℚ) : ℝ)).Pairwise (· ≤ ·) := by
  refine List.Pairwise.map _ ?_ h
  intro a b hab
  rcases hab with hlt | ⟨heq, _⟩
  · exact Real.sqrt_le_sqrt (by exact_mod_cast le_of_lt hlt)
  · rw [heq]

theorem find_best_cells_def (rv : List (List ℚ)) (mp : List ℚ) (k : ℕ)
    (hk : k ≠ 0) (hne : (compute_similarity_sq rv mp).length ≠ 0) :
    find_best_cells rv mp k =
      ((argsort (compute_similarity_sq rv mp)).take k,
        ((argsort (compute_similarity_sq rv mp)).take k).map
          fun i => (compute_similarity_sq rv mp).getD i 0) := by
  unfold find_best_cells
  rw [if_neg hk]
  simp only [hne, if_false]

theorem inv_weights_pos (metrics : List ℝ) (h : ∀ m ∈ metrics, 0 < m) :
    ∀ w ∈ inv_weights metrics, 0 < w := by
  intro w hw
  simp only [inv_weights, List.mem_map] at hw
  obtain ⟨m, hm, rfl⟩ := hw
  exact one_div_pos.mpr (h m hm)

theorem inv_weights_sum_pos (metrics : List ℝ) (h : ∀ m ∈ metrics, 0 < m)
    (hne : metrics ≠ []) : 0 < (inv_weights metrics).sum := by
  apply List.sum_pos _ (inv_weights_pos metrics h)
  simpa [inv_weights] using hne

theorem normalized_weights_sum_one (metrics : List ℝ)
    (h : ∀ m ∈ metrics, 0 < m) (hne : metrics ≠ []) :
    (normalized_weights metrics).sum = 1 := by
  unfold normalized_weights
  rw [list_sum_map_div]
  exact div_self (ne_of_gt (inv_weights_sum_pos metrics h hne))

theorem normalized_weights_nonneg (metrics : List ℝ)
    (h : ∀ m ∈ metrics, 0 < m) :
    ∀ w ∈ normalized_weights metrics, 0 ≤ w := by
  intro w hw
  simp only [normalized_weights, List.mem_map] at hw
  obtain ⟨v, hv, rfl⟩ := hw
  have hvpos : 0 < v := inv_weights_pos metrics h v hv
  have hne : metrics ≠ [] := by
    intro hnil
    rw [hnil] at hv
    simp [inv_weights] at hv
  exact le_of_lt (div_pos hvpos (inv_weights_sum_pos metrics h hne))

theorem normalized_weights_length (metrics : List ℝ) :
    (normalized_weights metrics).length = metrics.length := by
  simp [normalized_weights, inv_weights]

theorem list_convex_comb_inv_smul_mem {E : Type*} [AddCommGroup E] [Module ℝ E]
    {s : Set E} (hs : Convex ℝ s) :
    ∀ (ws : List ℝ) (ps : List E), ws.length = ps.length →
      (∀ w ∈ ws, 0 ≤ w) → (∀ p ∈ ps, p ∈ s) → 0 < ws.sum →
      (ws.sum)⁻¹ • ((ws.zip ps).map fun x => x.1 • x.2).sum ∈ s := by
  intro ws
  induction ws with
  | nil =>
    intro ps _ _ _ hpos
    simp at hpos
  | cons w ws ih =>
    intro ps hlen hw hps hpos
    cases ps with
    | nil => simp at hlen
    | cons p ps =>
      simp only [List.zip_cons_cons, List.map_cons, List.sum_cons] at hpos ⊢
      have hw0 : 0 ≤ w := hw w (List.mem_cons_self w ws)
      have hws : ∀ v ∈ ws, 0 ≤ v := fun v hv => hw v (List.mem_cons_of_mem w hv)
      have hts : 0 ≤ ws.sum := List.sum_nonneg hws
      have hpmem : p ∈ s := hps p (List.mem_cons_self p ps)
      have hpsmem : ∀ q ∈ ps, q ∈ s := fun q hq => hps q (List.mem_cons_of_mem p hq)
      by_cases h0 : ws.sum = 0
      · have hall : ∀ v ∈ ws, v = 0 := (list_sum_nonneg_eq_zero_iff ws hws).mp h0
        have hzero : ((ws.zip ps).map fun x => x.1 • x.2).sum = 0 := by
          apply List.sum_eq_zero
          intro x hx
          simp only [List.mem_map] at hx
          obtain ⟨y, hy, rfl⟩ := hx
          rw [hall y.1 (List.of_mem_zip hy).1, zero_smul]
        have hwpos : 0 < w := by rw [h0, add_zero] at hpos; exact hpos
        rw [hzero, add_zero, h0, add_zero, smul_smul, inv_mul_cancel₀ (ne_of_gt hwpos),
          one_smul]
        exact hpmem
      · have htpos : 0 < ws.sum := lt_of_le_of_ne hts (Ne.symm h0)
        have hq := ih ps (by simpa using hlen) hws hpsmem htpos
        have hrest : ((ws.zip ps).map fun x => x.1 • x.2).sum =
            ws.sum • ((ws.sum)⁻¹ • ((ws.zip ps).map fun x => x.1 • x.2).sum) :=
          (smul_inv_smul₀ h0 _).symm
        rw [hrest, smul_add, smul_smul, smul_smul]
        apply hs hpmem hq
        · exact mul_nonneg (inv_nonneg.mpr (le_of_lt hpos)) hw0
        · exact mul_nonneg (inv_nonneg.mpr (le_of_lt hpos)) hts
        · rw [← mul_add, inv_mul_cancel₀ (ne_of_gt hpos)]

theorem list_convex_comb_mem {E : Type*} [AddCommGroup E] [Module ℝ E]
    {s : Set E} (hs : Convex ℝ s) (ws : List ℝ) (ps : List E)
    (hlen : ws.length = ps.length) (hw : ∀ w ∈ ws, 0 ≤ w) (hsum : ws.sum = 1)
    (hps : ∀ p ∈ ps, p ∈ s) :
    ((ws.zip ps).map fun x => x.1 • x.2).sum ∈ s := by
  have := list_convex_comb_inv_smul_mem hs ws ps hlen hw hps (by rw [hsum]; norm_num)
  rwa [hsum, inv_one, one_smul] at this

theorem compute_barycentric_position_spec (cps : List (ℝ × ℝ))
    (best_indices : List ℕ) (metrics : List ℝ)
    (hlen : best_indices.length = metrics.length)
    (hidx : ∀ i ∈ best_indices, i < cps.length)
    (hpos : ∀ m ∈ metrics, 0 < m) (hne : metrics ≠ []) :
    compute_barycentric_position cps best_indices metrics =
      some ((((normalized_weights metrics).zip
        (best_indices.map fun i => cps.getD i (0, 0))).map fun x => x.1 • x.2).sum) ∧
    (((normalized_weights metrics).zip
        (best_indices.map fun i => cps.getD i (0, 0))).map fun x => x.1 • x.2).sum ∈
      convexHull ℝ {q : ℝ × ℝ | q ∈ best_indices.map fun i => cps.getD i (0, 0)} := by
  constructor
  · unfold compute_barycentric_position
    rw [if_pos ⟨hlen, hidx⟩]
  · apply list_convex_comb_mem (convex_convexHull ℝ _)
    · rw [normalized_weights_length, List.length_map, hlen]
    · exact normalized_weights_nonneg metrics hpos
    · exact normalized_weights_sum_one metrics hpos hne
    · intro q hq
      exact subset_convexHull ℝ _ hq

end Kbest

/-! ### Claim theorems -/

/-- C2: for every candidate 3D position and every list of anchors,
`calculate_error` — the sum over anchors of the squared difference
between the Euclidean distance from the position to the anchor and the
anchor's measured range — is a non-negative scalar, and it is zero
exactly when the position is consistent with every anchor's range. -/
theorem C2_calculate_error_nonneg_and_zero_iff_consistent
    (position : ℝ × ℝ × ℝ) (access_points : List Nlateration.AccessPoint) :
    0 ≤ Nlateration.calculate_error position access_points ∧
    (Nlateration.calculate_error position access_points = 0 ↔
      ∀ ap ∈ access_points,
        Nlateration.ap_distance position.1 position.2.1 position.2.2 ap = ap.radius) := by
  unfold Nlateration.calculate_error
  have hnn : ∀ x ∈ access_points.map fun ap =>
      (Nlateration.ap_distance position.1 position.2.1 position.2.2 ap - ap.radius) ^ 2,
      0 ≤ x := by
    intro x hx
    simp only [List.mem_map] at hx
    obtain ⟨ap, _, rfl⟩ := hx
    positivity
  refine ⟨List.sum_nonneg hnn, ?_⟩
  rw [Kbest.list_sum_nonneg_eq_zero_iff _ hnn]
  constructor
  · intro h ap hap
    have hsq := h _ (List.mem_map_of_mem _ hap)
    have := (pow_eq_zero_iff two_ne_zero).mp hsq
    linarith [sub_eq_zero.mp this]
  · intro h x hx
    simp only [List.mem_map] at hx
    obtain ⟨ap, hap, rfl⟩ := hx
    rw [h ap hap]
    ring

/-- C4: for a non-empty, equal-length pair of index and distance lists
with all distances positive, the normalized inverse-distance weights of
`compute_barycentric_position` sum to 1, and the returned position is
the corresponding weighted sum of the selected cell positions. -/
theorem C4_weights_sum_one_and_weighted_position
    (cps : List (ℝ × ℝ)) (best_indices : List ℕ) (metrics : List ℝ)
    (hne : metrics ≠ []) (hlen : best_indices.length = metrics.length)
    (hidx : ∀ i ∈ best_indices, i < cps.length)
    (hpos : ∀ m ∈ metrics, 0 < m) :
    (Kbest.normalized_weights metrics).sum = 1 ∧
    Kbest.compute_barycentric_position cps best_indices metrics =
      some ((((Kbest.normalized_weights metrics).zip
        (best_indices.map fun i => cps.getD i (0, 0))).map fun x => x.1 • x.2).sum) :=
  ⟨Kbest.normalized_weights_sum_one metrics hpos hne,
    (Kbest.compute_barycentric_position_spec cps best_indices metrics hlen hidx hpos hne).1⟩

/-- Witness for C4 at cell positions `[(0,0), (2,0)]`, indices `[0, 1]`
and distances `[1, 1]`. -/
theorem C4_weights_sum_one_and_weighted_position_witness :
    (([(1 : ℝ), 1] : List ℝ) ≠ []) ∧
    (([0, 1] : List ℕ).length = ([(1 : ℝ), 1] : List ℝ).length) ∧
    (∀ i ∈ ([0, 1] : List ℕ), i < ([(0, 0), (2, 0)] : List (ℝ × ℝ)).length) ∧
    (∀ m ∈ ([(1 : ℝ), 1] : List ℝ), 0 < m) ∧
    ((Kbest.normalized_weights [(1 : ℝ), 1]).sum = 1 ∧
      Kbest.compute_barycentric_position [(0, 0), (2, 0)] [0, 1] [(1 : ℝ), 1] =
        some ((((Kbest.normalized_weights [(1 : ℝ), 1]).zip
          (([0, 1] : List ℕ).map fun i =>
            ([(0, 0), (2, 0)] : List (ℝ × ℝ)).getD i (0, 0))).map
              fun x => x.1 • x.2).sum)) :=
  ⟨by simp, by simp, by simp, by norm_num,
    C4_weights_sum_one_and_weighted_position [(0, 0), (2, 0)] [0, 1] [(1 : ℝ), 1]
      (by simp) (by simp) (by simp) (by norm_num)⟩

/-- C5 (counterexample to the claimed safety): replaying
`compute_barycentric_position` under numpy float semantics on a
selection whose first distance is exactly `0`, the inverse weight is
`inf`, normalization computes `inf / inf = nan`, and NaN propagates
into both coordinates of the weighted sum — the source has no epsilon
clamp and no short-circuit. -/
theorem C5_zero_distance_propagates_nan :
    NpFloat.np_barycentric [(0, 0), (1, 0)] [0, 1] [0, 1] =
      (NpFloat.F.nan, NpFloat.F.nan) := by
  decide

/-- C6 (divergence): on reference vectors of width 3 and a measurement
vector of width 2, `compute_similarity` does not signal a condition the
caller can observe — the handler catches the dimension assertion,
prints, and silently returns the empty array. -/
theorem C6_dimension_mismatch_silently_returns_empty :
    Kbest.compute_similarity Kbest.reference_vectors [48, 58] = [] ∧
    Kbest.compute_similarity_sq Kbest.reference_vectors [48, 58] = [] := by
  refine ⟨?_, by decide⟩
  unfold Kbest.compute_similarity
  rw [show Kbest.compute_similarity_sq Kbest.reference_vectors [48, 58] = [] from by decide]
  rfl

/-- C7 (divergence): called with only two anchors, `trilaterate` does
not raise an error the caller can observe — the `AssertionError`
handler prints and falls through, returning Python `None` — and this
happens for every behaviour of the minimizer. -/
theorem C7_two_anchors_silently_returns_none
    (minimize : List Nlateration.AccessPoint → Option (ℝ × ℝ × ℝ)) :
    Nlateration.trilaterate minimize
      [⟨1, 4, 0, 0, 2, "red"⟩, ⟨2, 4, 5, 5, 4.2, "green"⟩] = none :=
  rfl

/-- C8 (divergence): when the minimization step fails, `trilaterate`
returns the default zero vector as if it were an estimate, with no
non-convergence signal; on a normal return it forwards `result.x`
without ever inspecting `result.success`, so no convergence status
exists in its return value at all. -/
theorem C8_solver_failure_silently_returns_zero_default :
    Nlateration.trilaterate (fun _ => none)
      [⟨0, 0.5, 0.5, 0.5, 3, "blue"⟩, ⟨1, 4, 0, 0, 2, "red"⟩,
        ⟨2, 4, 5, 5, 4.2, "green"⟩] = some (0, 0, 0) :=
  rfl

/-- C10: for every catalogue of `n` dimension-matching reference
vectors and every `k` greater than `n`, `find_best_cells` does not
fail: the selection is clamped to the catalogue size, and all `n`
catalogue indices are returned with their distances, ordered ascending
by distance. -/
theorem C10_find_best_cells_clamps_to_catalogue (rv : List (List ℚ)) (mp : List ℚ)
    (k : ℕ) (hdim : ∀ r ∈ rv, r.length = mp.length) (hkn : rv.length < k) :
    (Kbest.find_best_cells_real rv mp k).1.length = rv.length ∧
    (Kbest.find_best_cells_real rv mp k).2.length = rv.length ∧
    List.Perm (Kbest.find_best_cells_real rv mp k).1 (List.range rv.length) ∧
    (Kbest.find_best_cells_real rv mp k).2.Pairwise (· ≤ ·) := by
  have hmlen := Kbest.compute_similarity_sq_length rv mp hdim
  have hk0 : k ≠ 0 := by omega
  by_cases hz : rv.length = 0
  · have hrv : rv = [] := List.length_eq_zero.mp hz
    subst hrv
    have hcells : Kbest.find_best_cells ([] : List (List ℚ)) mp k = ([], []) := by
      unfold Kbest.find_best_cells
      rw [if_neg hk0]
      simp [Kbest.compute_similarity_sq]
    refine ⟨?_, ?_, ?_, ?_⟩ <;>
      simp [Kbest.find_best_cells_real, hcells]
  · have hne : (Kbest.compute_similarity_sq rv mp).length ≠ 0 := by omega
    have hdef := Kbest.find_best_cells_def rv mp k hk0 hne
    have htake : (Kbest.argsort (Kbest.compute_similarity_sq rv mp)).take k =
        Kbest.argsort (Kbest.compute_similarity_sq rv mp) := by
      apply List.take_of_length_le
      rw [Kbest.argsort_length, hmlen]
      omega
    rw [htake] at hdef
    have h1 : (Kbest.find_best_cells_real rv mp k).1 =
        Kbest.argsort (Kbest.compute_similarity_sq rv mp) := by
      unfold Kbest.find_best_cells_real
      rw [hdef]
    have h2 : (Kbest.find_best_cells_real rv mp k).2 =
        (Kbest.argsort (Kbest.compute_similarity_sq rv mp)).map fun i =>
          Real.sqrt (((Kbest.compute_similarity_sq rv mp).getD i 0 : ℚ) : ℝ) := by
      unfold Kbest.find_best_cells_real
      rw [hdef]
      simp [List.map_map, Function.comp_def]
    refine ⟨?_, ?_, ?_, ?_⟩
    · rw [h1, Kbest.argsort_length, hmlen]
    · rw [h2, List.length_map, Kbest.argsort_length, hmlen]
    · rw [h1, ← hmlen]
      exact Kbest.argsort_perm _
    · rw [h2]
      exact Kbest.sorted_sqrt_of_pairwise_strict _ _ (Kbest.argsort_pairwise_strict _)

/-- Witness for C10 at the two-cell catalogue `[[1], [0]]`, measurement
`[0]` and `k = 5`. -/
theorem C10_find_best_cells_clamps_to_catalogue_witness :
    (∀ r ∈ ([[1], [0]] : List (List ℚ)), r.length = ([0] : List ℚ).length) ∧
    ([[1], [0]] : List (List ℚ)).length < 5 ∧
    ((Kbest.find_best_cells_real [[1], [0]] [0] 5).1.length =
        ([[1], [0]] : List (List ℚ)).length ∧
      (Kbest.find_best_cells_real [[1], [0]] [0] 5).2.length =
        ([[1], [0]] : List (List ℚ)).length ∧
      List.Perm (Kbest.find_best_cells_real [[1], [0]] [0] 5).1
        (List.range ([[1], [0]] : List (List ℚ)).length) ∧
      (Kbest.find_best_cells_real [[1], [0]] [0] 5).2.Pairwise (· ≤ ·)) :=
  ⟨by decide, by decide,
    C10_find_best_cells_clamps_to_catalogue [[1], [0]] [0] 5 (by decide) (by decide)⟩

/-- C9: on the module-level catalogue and measurement vector of
`kbest.py`, `find_best_cells` with `k = 4` returns indices ordered by
ascending Euclidean distance to `[48, 58, 68]` — entry `0`, at distance
`√12 ≈ 3.46`, ranks first — and `compute_barycentric_position` with the
module-level cell positions applied to those 4 selected entries returns
a position inside the convex hull of the 4 selected cell positions. -/
theorem C9_module_level_boundary_case :
    (Kbest.find_best_cells_real Kbest.reference_vectors Kbest.mp_vector 4).1 =
      [0, 3, 1, 2] ∧
    (Kbest.find_best_cells_real Kbest.reference_vectors Kbest.mp_vector 4).2 =
      [Real.sqrt 12, Real.sqrt 27, Real.sqrt 147, Real.sqrt 192] ∧
    ((3.46 : ℝ) < Real.sqrt 12 ∧ Real.sqrt 12 < 3.47) ∧
    (Kbest.find_best_cells_real Kbest.reference_vectors Kbest.mp_vector 4).2.Pairwise
      (· ≤ ·) ∧
    (∃ p : ℝ × ℝ,
      Kbest.compute_barycentric_position Kbest.cell_positions
        (Kbest.find_best_cells_real Kbest.reference_vectors Kbest.mp_vector 4).1
        (Kbest.find_best_cells_real Kbest.reference_vectors Kbest.mp_vector 4).2 =
          some p ∧
      p ∈ convexHull ℝ ({((0 : ℝ), (0 : ℝ)), (1, 1), (1, 0), (0, 1)} : Set (ℝ × ℝ))) := by
  have hsq : Kbest.compute_similarity_sq Kbest.reference_vectors Kbest.mp_vector =
      [12, 147, 192, 27, 972] := by
    norm_num [Kbest.compute_similarity_sq, Kbest.sq_dist, Kbest.reference_vectors,
      Kbest.mp_vector, List.zip]
  have hfbc : Kbest.find_best_cells Kbest.reference_vectors Kbest.mp_vector 4 =
      ([0, 3, 1, 2], [12, 27, 147, 192]) := by
    rw [Kbest.find_best_cells_def _ _ _ (by norm_num) (by rw [hsq]; norm_num), hsq]
    decide
  have h1 : (Kbest.find_best_cells_real Kbest.reference_vectors Kbest.mp_vector 4).1 =
      [0, 3, 1, 2] := by
    unfold Kbest.find_best_cells_real
    rw [hfbc]
  have h2 : (Kbest.find_best_cells_real Kbest.reference_vectors Kbest.mp_vector 4).2 =
      [Real.sqrt 12, Real.sqrt 27, Real.sqrt 147, Real.sqrt 192] := by
    unfold Kbest.find_best_cells_real
    rw [hfbc]
    norm_num
  have hs1 : Real.sqrt 12 ≤ Real.sqrt 27 := Real.sqrt_le_sqrt (by norm_num)
  have hs2 : Real.sqrt 27 ≤ Real.sqrt 147 := Real.sqrt_le_sqrt (by norm_num)
  have hs3 : Real.sqrt 147 ≤ Real.sqrt 192 := Real.sqrt_le_sqrt (by norm_num)
  refine ⟨h1, h2, ⟨?_, ?_⟩, ?_, ?_⟩
  · rw [show (12 : ℝ) = 12 from rfl]
    exact (Real.lt_sqrt (by norm_num)).mpr (by norm_num)
  · exact (Real.sqrt_lt' (by norm_num)).mpr (by norm_num)
  · rw [h2]
    refine List.Pairwise.cons ?_ (List.Pairwise.cons ?_ (List.Pairwise.cons ?_
      (List.pairwise_singleton _ _)))
    · intro b hb
      rcases List.mem_cons.mp hb with rfl | hb
      · exact hs1
      rcases List.mem_cons.mp hb with rfl | hb
      · exact hs1.trans hs2
      rcases List.mem_cons.mp hb with rfl | hb
      · exact (hs1.trans hs2).trans hs3
      · simp at hb
    · intro b hb
      rcases List.mem_cons.mp hb with rfl | hb
      · exact hs2
      rcases List.mem_cons.mp hb with rfl | hb
      · exact hs2.trans hs3
      · simp at hb
    · intro b hb
      rcases List.mem_cons.mp hb with rfl | hb
      · exact hs3
      · simp at hb
  · rw [h1, h2]
    have hpos : ∀ x ∈ [Real.sqrt 12, Real.sqrt 27, Real.sqrt 147, Real.sqrt 192],
        (0 : ℝ) < x := by
      intro x hx
      rcases List.mem_cons.mp hx with rfl | hx
      · exact Real.sqrt_pos.mpr (by norm_num)
      rcases List.mem_cons.mp hx with rfl | hx
      · exact Real.sqrt_pos.mpr (by norm_num)
      rcases List.mem_cons.mp hx with rfl | hx
      · exact Real.sqrt_pos.mpr (by norm_num)
      rcases List.mem_cons.mp hx with rfl | hx
      · exact Real.sqrt_pos.mpr (by norm_num)
      · simp at hx
    have hspec := Kbest.compute_barycentric_position_spec Kbest.cell_positions
      [0, 3, 1, 2] [Real.sqrt 12, Real.sqrt 27, Real.sqrt 147, Real.sqrt 192]
      (by simp) (by simp [Kbest.cell_positions]) hpos (by simp)
    have hsel : ([0, 3, 1, 2] : List ℕ).map
        (fun i => Kbest.cell_positions.getD i (0, 0)) =
        [((0 : ℝ), (0 : ℝ)), (1, 1), (1, 0), (0, 1)] := rfl
    rw [hsel] at hspec
    have hset : {q : ℝ × ℝ | q ∈ [((0 : ℝ), (0 : ℝ)), (1, 1), (1, 0), (0, 1)]} =
        ({((0 : ℝ), (0 : ℝ)), (1, 1), (1, 0), (0, 1)} : Set (ℝ × ℝ)) := by
      ext q
      simp
    rw [hset] at hspec
    exact ⟨_, hspec.1, hspec.2⟩
